import Mathlib

/-!
Verification of the Transformer notebook implementation.

Shallow embedding of the code in `transformer.ipynb` (the completed second
notebook).  Tensors are nested lists of exact rationals; the external
numerical primitives (`exp` inside `F.softmax`, `np.sqrt`, `torch.sin`,
`torch.cos`, `torch.pow`) are passed in as function parameters, since the
code treats them as opaque numeric routines.  IEEE special values, which the
source produces in its masking branch via `float('-inf')`, are modelled by
the type `FV` below.
-/

namespace Transformers

/-- A 2-D tensor (matrix): list of rows of rationals. -/
abbrev Mat := List (List ℚ)

/-- A 3-D tensor (batch of matrices). -/
abbrev T3 := List Mat

/-- Dot product of two rows, as computed by a matmul inner loop. -/
def dotQ (a b : List ℚ) : ℚ := (List.zipWith (· * ·) a b).sum

/-- Embeds `torch.transpose(m, -2, -1)` on a 2-D tensor: column `j` becomes row `j`.
The column count is read off the first row, as a tensor's shape would give. -/
def transposeM (m : Mat) : Mat :=
  (List.range (m.headD []).length).map (fun j => m.map (fun r => r.getD j 0))

/-- Embeds `torch.matmul` on 2-D tensors. -/
def matmul (A B : Mat) : Mat :=
  A.map (fun r => (transposeM B).map (fun c => dotQ r c))

/-- Elementwise addition of two 2-D tensors (`+` on same-shape tensors). -/
def addM (A B : Mat) : Mat := List.zipWith (List.zipWith (· + ·)) A B

/-- Batched `torch.matmul` of a 3-D tensor with a 2-D weight (broadcast). -/
def matmul3 (X : T3) (W : Mat) : T3 := X.map (fun m => matmul m W)

/-- Elementwise addition of two 3-D tensors. -/
def add3 (X Y : T3) : T3 := List.zipWith addM X Y

/-- Shape predicate: `m` is an `r × c` matrix. -/
def IsMat (m : Mat) (r c : ℕ) : Prop :=
  m.length = r ∧ ∀ row ∈ m, row.length = c

/-- Shape predicate: `t` is a `b × r × c` tensor. -/
def IsT3 (t : T3) (b r c : ℕ) : Prop :=
  t.length = b ∧ ∀ m ∈ t, IsMat m r c

instance (m : Mat) (r c : ℕ) : Decidable (IsMat m r c) := by
  unfold IsMat; infer_instance

instance (t : T3) (b r c : ℕ) : Decidable (IsT3 t b r c) := by
  unfold IsT3; infer_instance

/-! ### Basic shape lemmas -/

theorem of_mem_zipWith {α β γ : Type} {f : α → β → γ} :
    ∀ {as : List α} {bs : List β} {x : γ}, x ∈ List.zipWith f as bs →
      ∃ a ∈ as, ∃ b ∈ bs, x = f a b := by
  intro as
  induction as with
  | nil => intro bs x hx; simp at hx
  | cons a as ih =>
    intro bs x hx
    cases bs with
    | nil => simp at hx
    | cons b bs =>
      simp only [List.zipWith_cons_cons, List.mem_cons] at hx
      rcases hx with rfl | hx
      · exact ⟨a, by simp, b, by simp, rfl⟩
      · obtain ⟨a0, ha0, b0, hb0, rfl⟩ := ih hx
        exact ⟨a0, by simp [ha0], b0, by simp [hb0], rfl⟩

theorem length_headD_of_isMat {m : Mat} {r c : ℕ} (h : IsMat m r c) (hr : 0 < r) :
    (m.headD []).length = c := by
  obtain ⟨hl, hrow⟩ := h
  cases m with
  | nil => simp at hl; omega
  | cons a l => exact hrow a (by simp)

theorem transposeM_isMat {m : Mat} {r c : ℕ} (h : IsMat m r c) (hr : 0 < r) :
    IsMat (transposeM m) c r := by
  constructor
  · simp only [transposeM, List.length_map, List.length_range]
    exact length_headD_of_isMat h hr
  · intro row hrow
    simp only [transposeM, List.mem_map] at hrow
    obtain ⟨j, _, rfl⟩ := hrow
    simp [h.1]

theorem matmul_isMat {A B : Mat} {r k c : ℕ}
    (hA : IsMat A r k) (hB : IsMat B k c) (hk : 0 < k) :
    IsMat (matmul A B) r c := by
  constructor
  · simp [matmul, hA.1]
  · intro row hrow
    simp only [matmul, List.mem_map] at hrow
    obtain ⟨a, _, rfl⟩ := hrow
    have : (transposeM B).length = c := (transposeM_isMat hB hk).1
    simp [this]

theorem addM_isMat {A B : Mat} {r c : ℕ}
    (hA : IsMat A r c) (hB : IsMat B r c) : IsMat (addM A B) r c := by
  constructor
  · simp [addM, hA.1, hB.1]
  · intro row hrow
    simp only [addM] at hrow
    have := of_mem_zipWith hrow
    obtain ⟨a, ha, b, hb, rfl⟩ := this
    simp [hA.2 a ha, hB.2 b hb]

theorem matmul3_isT3 {X : T3} {W : Mat} {b n k c : ℕ}
    (hX : IsT3 X b n k) (hW : IsMat W k c) (hk : 0 < k) :
    IsT3 (matmul3 X W) b n c := by
  constructor
  · simp [matmul3, hX.1]
  · intro m hm
    simp only [matmul3, List.mem_map] at hm
    obtain ⟨m0, hm0, rfl⟩ := hm
    exact matmul_isMat (hX.2 m0 hm0) hW hk

theorem add3_isT3 {X Y : T3} {b n c : ℕ}
    (hX : IsT3 X b n c) (hY : IsT3 Y b n c) : IsT3 (add3 X Y) b n c := by
  constructor
  · simp [add3, hX.1, hY.1]
  · intro m hm
    obtain ⟨x, hx, y, hy, rfl⟩ := of_mem_zipWith hm
    exact addM_isMat (hX.2 x hx) (hY.2 y hy)

/-! ### Scaled dot-product attention

`ScaledDotProductAttention.forward(Q, K, V)` from the source.  `E` stands for
the exponential used inside `F.softmax`, `sF` for `np.sqrt` applied to the
integer `d_k` (both opaque numeric primitives of the host libraries).  The
`self.mask` flag chooses between the plain path and the masking branch; the
two instantiations are embedded as `forward` (mask=False) and
`forwardMasked` (mask=True, which post-multiplies `forward`'s result exactly
as the source does). -/

/-- One row of `F.softmax(·, dim=-1)`: exponentiate and divide by the row sum. -/
def softmaxRow (E : ℚ → ℚ) (r : List ℚ) : List ℚ :=
  r.map (fun x => E x / (r.map E).sum)

/-- Embeds `F.softmax(m, dim=-1)` on a 2-D tensor. -/
def softmaxM (E : ℚ → ℚ) (m : Mat) : Mat := m.map (softmaxRow E)

/-- The attention-weight matrix of `ScaledDotProductAttention.forward`:
`softmax(Q · Kᵀ / sqrt(d_k))` with `d_k = K.shape[-1]`. -/
def ScaledDotProductAttention.weights (E : ℚ → ℚ) (sF : ℕ → ℚ) (Q K : Mat) : Mat :=
  let K_transpose := transposeM K
  let dot_products := matmul Q K_transpose
  let d_k := (K.headD []).length
  let scaled_dot_products := dot_products.map (fun r => r.map (fun v => v / sF d_k))
  softmaxM E scaled_dot_products

/-- Embeds `ScaledDotProductAttention.forward` with `mask=False`:
`weighted_values = torch.matmul(weights, V)`. -/
def ScaledDotProductAttention.forward (E : ℚ → ℚ) (sF : ℕ → ℚ) (Q K V : Mat) : Mat :=
  matmul (ScaledDotProductAttention.weights E sF Q K) V

/-- IEEE-style float value: finite rational, the two infinities, or NaN.
Needed because the masking branch multiplies by `float('-inf')`. -/
inductive FV where
  | fin (q : ℚ)
  | pinf
  | ninf
  | nan
deriving DecidableEq

/-- IEEE multiplication on `FV` (the cases `0 * ±∞ = NaN` included). -/
def FV.mul : FV → FV → FV
  | .fin a, .fin b => .fin (a * b)
  | .fin a, .pinf => if 0 < a then .pinf else if a < 0 then .ninf else .nan
  | .fin a, .ninf => if 0 < a then .ninf else if a < 0 then .pinf else .nan
  | .pinf, .fin b => if 0 < b then .pinf else if b < 0 then .ninf else .nan
  | .ninf, .fin b => if 0 < b then .ninf else if b < 0 then .pinf else .nan
  | .pinf, .pinf => .pinf
  | .pinf, .ninf => .ninf
  | .ninf, .pinf => .ninf
  | .ninf, .ninf => .pinf
  | .nan, _ => .nan
  | .fin _, .nan => .nan
  | .pinf, .nan => .nan
  | .ninf, .nan => .nan

/-- Embeds `torch.triu(torch.full(size, float('-inf')), diagonal=1)` followed by
`look_ahead_mask[look_ahead_mask == 0] = 1`: `-inf` strictly above the
diagonal, `1` elsewhere. -/
def lookAheadMask (rows cols : ℕ) : List (List FV) :=
  (List.range rows).map (fun i =>
    (List.range cols).map (fun j => if i < j then FV.ninf else FV.fin 1))

/-- Elementwise `FV` product of two 2-D float tensors. -/
def mulFV2 (A B : List (List FV)) : List (List FV) :=
  List.zipWith (List.zipWith FV.mul) A B

/-- Embeds `ScaledDotProductAttention.forward` with `mask=True`: the source first
computes `weighted_values` exactly as in the unmasked path, then multiplies
it elementwise by the look-ahead mask (whose shape is
`weighted_values.shape`). -/
def ScaledDotProductAttention.forwardMasked (E : ℚ → ℚ) (sF : ℕ → ℚ)
    (Q K V : Mat) : List (List FV) :=
  let weighted_values := ScaledDotProductAttention.forward E sF Q K V
  mulFV2 (weighted_values.map (fun r => r.map FV.fin))
    (lookAheadMask weighted_values.length ((weighted_values.headD []).length))

/-! ### Attention head and multi-head attention -/

/-- The three weight matrices owned by one `Attention` head. -/
structure AttentionW where
  WK : Mat
  WQ : Mat
  WV : Mat

/-- Embeds `Attention.forward(inputs, encoder_output)`: `X` is `encoder_output` when
present, else `inputs`; `K`/`V` are projected from `X`, `Q` from `inputs`. -/
def Attention.forward (E : ℚ → ℚ) (sF : ℕ → ℚ) (w : AttentionW)
    (inputs : T3) (encoder_output : Option T3) : T3 :=
  let X := encoder_output.getD inputs
  let K := matmul3 X w.WK
  let V := matmul3 X w.WV
  let Q := matmul3 inputs w.WQ
  List.zipWith3 (fun q k v => ScaledDotProductAttention.forward E sF q k v) Q K V

/-- Embeds `torch.cat(ts, -1)`: concatenate a nonempty list of 3-D tensors along the
last (feature) axis. -/
def cat3 : List T3 → T3
  | [] => []
  | t :: ts =>
    ts.foldl (fun acc u => List.zipWith (fun ma mb => List.zipWith (· ++ ·) ma mb) acc u) t

/-- Embeds `MultiHeadAttention.forward`: run every head on the same
`(x, encoder_output)` pair, concatenate along the feature axis, then project
with the `(h·d_k, d_model)` output matrix `W`. -/
def MultiHeadAttention.forward (E : ℚ → ℚ) (sF : ℕ → ℚ)
    (heads : List AttentionW) (W : Mat) (x : T3) (encoder_output : Option T3) : T3 :=
  let attention_scores := heads.map (fun a => Attention.forward E sF a x encoder_output)
  let Z := cat3 attention_scores
  matmul3 Z W

/-- The construction-time failure of `MultiHeadAttention.__init__`
(`assert d_model % n_head == 0`); the spec's taxonomy calls it ConfigError. -/
inductive ConfigError where
  | notDivisible
deriving DecidableEq

/-- A constructed `MultiHeadAttention` layer: its heads, output projection
and mask flag. -/
structure MultiHeadAttentionLayer where
  heads : List AttentionW
  W : Mat
  mask : Bool

/-- Embeds `MultiHeadAttention.__init__(n_head, d_model, mask)`.  The random
`torch.randn` draws are supplied externally: `randA i r c` is the i-th head's
sampled `(r, c)` weight triple and `randW r c` the sampled output projection.
The divisibility assertion fires before any weight is created. -/
def MultiHeadAttention.init (randA : ℕ → ℕ → ℕ → AttentionW) (randW : ℕ → ℕ → Mat)
    (n_head d_model : ℕ) (mask : Bool) :
    Except ConfigError MultiHeadAttentionLayer :=
  if d_model % n_head = 0 then
    let d_key := d_model / n_head
    .ok ⟨(List.range n_head).map (fun i => randA i d_model d_key),
         randW (n_head * d_key) d_model, mask⟩
  else
    .error ConfigError.notDivisible

/-! ### Feed-forward network, layer norm, sublayer, encoder -/

/-- Polymorphic three-list `zipWith` (used for the layer-norm affine step). -/
def zipW3 {α β γ δ : Type} (f : α → β → γ → δ) : List α → List β → List γ → List δ
  | a :: as, b :: bs, c :: cs => f a b c :: zipW3 f as bs cs
  | _, _, _ => []

/-- Embeds `nn.Linear(inF, outF)` applied to a 2-D input: `x · Wᵀ + bias`, with `W`
of shape `(outF, inF)` and the bias added to every row. -/
def linearForward (W : Mat) (bias : List ℚ) (m : Mat) : Mat :=
  (matmul m (transposeM W)).map (fun row => List.zipWith (· + ·) row bias)

/-- The two `nn.Linear` weights/biases of `FeedForwardNetwork`. -/
structure FeedForwardW where
  W1 : Mat
  b1 : List ℚ
  W2 : Mat
  b2 : List ℚ

/-- Embeds `FeedForwardNetwork.forward`: Linear, ReLU, Linear, applied per batch
element (position-wise). -/
def FeedForwardNetwork.forward (f : FeedForwardW) (x : T3) : T3 :=
  x.map (fun m =>
    linearForward f.W2 f.b2 ((linearForward f.W1 f.b1 m).map (fun row => row.map (fun v => max v 0))))

/-- The learned per-feature scale and shift of an `nn.LayerNorm(d_model)`. -/
structure LayerNormW where
  gamma : List ℚ
  beta : List ℚ

/-- Embeds `nn.LayerNorm` on one feature row: normalize to zero mean and unit
variance over the feature axis (`eps = 1e-5`), then apply the affine
parameters.  `sq` stands for the square root primitive. -/
def layerNormRow (sq : ℚ → ℚ) (wn : LayerNormW) (r : List ℚ) : List ℚ :=
  let n : ℚ := r.length
  let mean := r.sum / n
  let variance := (r.map (fun v => (v - mean) ^ 2)).sum / n
  let denom := sq (variance + 1 / 100000)
  zipW3 (fun g b v => g * ((v - mean) / denom) + b) wn.gamma wn.beta r

/-- Embeds `nn.LayerNorm(d_model)` applied to a 3-D tensor: per batch element, per
sequence position, over the feature axis only. -/
def LayerNorm.forward (sq : ℚ → ℚ) (wn : LayerNormW) (x : T3) : T3 :=
  x.map (fun m => m.map (layerNormRow sq wn))

/-- Embeds `Residual_Connection.forward`: `x + layer(x)` (`x = x + f_x` in the
source). -/
def Residual_Connection.forward (layer : T3 → T3) (x : T3) : T3 :=
  let f_x := layer x
  add3 x f_x

/-- Embeds `Sublayer.forward`: the residual connection followed by layer
normalization. -/
def Sublayer.forward (sq : ℚ → ℚ) (wn : LayerNormW) (layer : T3 → T3) (x : T3) : T3 :=
  LayerNorm.forward sq wn (Residual_Connection.forward layer x)

/-- The weights of one `Encoder` layer. -/
structure EncoderW where
  attention_heads : List AttentionW
  attention_W : Mat
  feed_forward : FeedForwardW
  layer_norm1 : LayerNormW
  layer_norm2 : LayerNormW

/-- Embeds `Encoder.forward`: self-attention with inlined residual+norm, then the
feed-forward network with inlined residual+norm. -/
def Encoder.forward (E : ℚ → ℚ) (sF : ℕ → ℚ) (sq : ℚ → ℚ) (e : EncoderW) (x : T3) : T3 :=
  let attention_scores := MultiHeadAttention.forward E sF e.attention_heads e.attention_W x none
  let x1 := LayerNorm.forward sq e.layer_norm1 (add3 attention_scores x)
  let scores := FeedForwardNetwork.forward e.feed_forward x1
  LayerNorm.forward sq e.layer_norm2 (add3 scores x1)

/-! ### Positional encoding

`PositionalEncoding.forward(x)` builds a zero `(n, d)` tensor and fills its
even and odd feature columns by two slice assignments.  The slice
`PE[:, 0::2]` has `⌈d/2⌉` columns while the right-hand side
`sin(position / div_term)` has `d // 2` columns (`i = arange(d // 2)`), so
the assignment succeeds only under the broadcasting rule (equal widths, or a
width-1 right-hand side); otherwise torch raises a shape error, modelled by
`none`.  `sinF`, `cosF`, `powF` are `torch.sin`, `torch.cos` and
`torch.pow 10000` respectively. -/

/-- Torch broadcasting of a right-hand side of width `src` into a slice of
width `tgt`: widths must be equal or `src` must be 1. -/
def broadcastsTo (src tgt : ℕ) : Bool := src == tgt || src == 1

/-- Entry `(p, c)` of the positional-encoding tensor produced by the two
slice assignments: even columns take `sin(p / div_term i)`, odd columns
`cos(p / div_term i)` with `div_term i = 10000 ^ (2 i / d)`; when the
right-hand side is a single column broadcast across the even slice, that
column is index 0. -/
def PositionalEncoding.entry (sinF cosF powF : ℚ → ℚ) (d p c : ℕ) : ℚ :=
  let div_term := fun i : ℕ => powF (2 * (i : ℚ) / (d : ℚ))
  if c % 2 = 0 then
    sinF ((p : ℚ) / div_term (if d / 2 = 1 then 0 else c / 2))
  else
    cosF ((p : ℚ) / div_term (c / 2))

/-- Embeds `PositionalEncoding.forward` as a function of the `(n, d)` shape taken
from the input tensor, `none` when a slice assignment fails. -/
def PositionalEncoding.forward (sinF cosF powF : ℚ → ℚ) (n d : ℕ) : Option Mat :=
  if broadcastsTo (d / 2) ((d + 1) / 2) && broadcastsTo (d / 2) (d / 2) then
    some ((List.range n).map (fun p =>
      (List.range d).map (fun c => PositionalEncoding.entry sinF cosF powF d p c)))
  else
    none

/-- Embeds `PositionalEncoding.forward(x)` on an actual 3-D input: only
`x.shape[1:]` is consulted. -/
def PositionalEncoding.forwardT (sinF cosF powF : ℚ → ℚ) (x : T3) : Option Mat :=
  PositionalEncoding.forward sinF cosF powF (x.headD []).length ((x.headD []).headD []).length

/-! ### Embedding and pre-softmax projection (weight tying) -/

/-- Embeds the `nn.Embedding` lookup: token index `t` selects row `t` of the shared
embedding weight matrix. -/
def Embedding.lookup (weight : Mat) (idx : List (List ℕ)) : T3 :=
  idx.map (fun row => row.map (fun tok => weight.getD tok []))

/-- The pre-softmax projection in `Transformer.forward`:
`scores = torch.matmul(decoder_output, torch.transpose(self.embedding.weight, -2, -1))`
— the transpose of the same shared embedding matrix. -/
def Transformer.projectScores (weight : Mat) (decoder_output : T3) : T3 :=
  matmul3 decoder_output (transposeM weight)

/-- Overwrite a single entry `(t, j)` of a weight matrix. -/
def setEntry (m : Mat) (t j : ℕ) (v : ℚ) : Mat :=
  m.set t ((m.getD t []).set j v)

/-- The zero tensor of the same shape as `t` (what a sub-transformation
returning zero everywhere produces). -/
def zerosLike3 (t : T3) : T3 :=
  t.map (fun m => m.map (fun r => r.map (fun _ => (0 : ℚ))))

/-! ### Helper lemmas -/

theorem zipWith_add_zeros (r : List ℚ) :
    List.zipWith (· + ·) r (r.map (fun _ => (0 : ℚ))) = r := by
  induction r with
  | nil => rfl
  | cons a t ih =>
    simp only [List.map_cons, List.zipWith_cons_cons, add_zero, ih]

theorem addM_zerosLike (m : Mat) :
    addM m (m.map (fun r => r.map (fun _ => (0 : ℚ)))) = m := by
  unfold addM
  induction m with
  | nil => rfl
  | cons r t ih =>
    simp only [List.map_cons, List.zipWith_cons_cons, zipWith_add_zeros, ih]

theorem add3_zerosLike (x : T3) : add3 x (zerosLike3 x) = x := by
  unfold add3 zerosLike3
  induction x with
  | nil => rfl
  | cons m t ih =>
    simp only [List.map_cons, List.zipWith_cons_cons, addM_zerosLike, ih]

theorem addM_comm (A B : Mat) : addM A B = addM B A :=
  List.zipWith_comm_of_comm _ (fun a b => List.zipWith_comm_of_comm _ add_comm a b) A B

theorem add3_comm (X Y : T3) : add3 X Y = add3 Y X :=
  List.zipWith_comm_of_comm _ addM_comm X Y

/-! ### Claim theorems: construction error, positional-encoding totality,
sublayer contract, encoder refinement -/

/-- Claim C3: constructing MultiHeadAttention with d_model=512 and h=7 fails
at construction time with ConfigError (512 is not divisible by 7), whatever
random weights would have been drawn, preventing creation of the layer. -/
theorem C3_mha_init_fails_512_7 (randA : ℕ → ℕ → ℕ → AttentionW)
    (randW : ℕ → ℕ → Mat) (mask : Bool) :
    MultiHeadAttention.init randA randW 7 512 mask =
      Except.error ConfigError.notDivisible := rfl

/-- Claim C10 counterexample: for d_model = 3 (odd) and sequence length 2,
`PositionalEncoding.forward` does NOT fail — the single-column sin/cos term
broadcasts into the two even-index columns — refuting the claim that the
computation fails for every odd d_model. -/
theorem C10_counterexample_d3_succeeds :
    (PositionalEncoding.forward (fun _ => 0) (fun _ => 0) (fun _ => 1) 2 3).isSome = true := by
  decide

/-- Claim C10 (amended): `PositionalEncoding.forward` succeeds exactly when
d_model is even or d_model = 3; every other odd d_model (including 1) makes
the even-column slice assignment fail, because the slice has ⌈d/2⌉ columns
while the sin term has ⌊d/2⌋ ≠ 1 columns. -/
theorem C10_pe_succeeds_iff (sinF cosF powF : ℚ → ℚ) (n d : ℕ) :
    (PositionalEncoding.forward sinF cosF powF n d).isSome = true ↔
      (d % 2 = 0 ∨ d = 3) := by
  have hcond : ((broadcastsTo (d / 2) ((d + 1) / 2) && broadcastsTo (d / 2) (d / 2)) = true) ↔
      (d % 2 = 0 ∨ d = 3) := by
    simp [broadcastsTo]
    omega
  unfold PositionalEncoding.forward
  split
  · rename_i h
    simpa using hcond.mp h
  · rename_i h
    have hnot : ¬(d % 2 = 0 ∨ d = 3) := fun hor => h (hcond.mpr hor)
    simp [hnot]

/-- Claim C2 (bug evidence): the masking branch of ScaledDotProductAttention
multiplies the already-computed weighted values by a −∞/1 mask, so a masked
decoder self-attention head emits −∞ at every above-diagonal output entry:
at Q = K = [[0],[0]], V = [[1,1],[1,1]] the masked output entry (0,1) is
−∞, which then poisons the decoder stack and the final softmax rows, so
they are not probability distributions. -/
theorem C2_masked_branch_emits_negative_infinity :
    ((ScaledDotProductAttention.forwardMasked (fun _ => 1) (fun _ => 1)
        [[0], [0]] [[0], [0]] [[1, 1], [1, 1]]).getD 0 []).getD 1 (FV.fin 0) = FV.ninf := by
  norm_num [ScaledDotProductAttention.forwardMasked, ScaledDotProductAttention.forward,
    ScaledDotProductAttention.weights, softmaxM, softmaxRow, matmul, transposeM, dotQ,
    mulFV2, lookAheadMask, FV.mul, List.range_succ]

/-- Claim C1 (bug evidence): the code multiplies a −∞/1 mask into the
output AFTER softmax normalization and value-weighting instead of masking
the raw scores, so the output at query position 0 is NOT invariant to
changes of Value row 1 (a future position): with Q = K = [[0],[0]], output
row 0 changes when V = [[0],[1]] is replaced by [[0],[2]], for every
positive softmax exponential E and any scaling primitive. -/
theorem C1_masked_attention_not_causal (E : ℚ → ℚ) (sF : ℕ → ℚ) (hE : 0 < E 0) :
    (ScaledDotProductAttention.forwardMasked E sF
        [[0], [0]] [[0], [0]] [[0], [1]]).getD 0 [] ≠
      (ScaledDotProductAttention.forwardMasked E sF
        [[0], [0]] [[0], [0]] [[0], [2]]).getD 0 [] := by
  intro h
  have hne : E 0 ≠ 0 := ne_of_gt hE
  simp [ScaledDotProductAttention.forwardMasked, ScaledDotProductAttention.forward,
    ScaledDotProductAttention.weights, softmaxM, softmaxRow, matmul, transposeM, dotQ,
    mulFV2, lookAheadMask, FV.mul, List.range_succ, hne] at h

/-- Witness for C1 at the concrete exponential E = 1 and scaling 1
(E(0) = 1 > 0 holds for the real exponential as well). -/
theorem C1_witness :
    (0 : ℚ) < 1 ∧
    (ScaledDotProductAttention.forwardMasked (fun _ => 1) (fun _ => 1)
        [[0], [0]] [[0], [0]] [[0], [1]]).getD 0 [] ≠
      (ScaledDotProductAttention.forwardMasked (fun _ => 1) (fun _ => 1)
        [[0], [0]] [[0], [0]] [[0], [2]]).getD 0 [] :=
  ⟨one_pos, C1_masked_attention_not_causal (fun _ => 1) (fun _ => 1) one_pos⟩

/-! ### Softmax row sums and attention shapes -/

theorem sum_map_div (l : List ℚ) (c : ℚ) :
    (l.map (fun x => x / c)).sum = l.sum / c := by
  induction l with
  | nil => simp
  | cons a t ih => simp [ih, add_div]

theorem sum_map_pos (E : ℚ → ℚ) (hE : ∀ x, 0 < E x) (r : List ℚ) (hr : r ≠ []) :
    0 < (r.map E).sum := by
  apply List.sum_pos
  · intro x hx
    obtain ⟨y, _, rfl⟩ := List.mem_map.1 hx
    exact hE y
  · simpa using hr

/-- Each row of the softmax is a probability vector: its entries sum to
exactly 1 (so certainly within any tolerance). -/
theorem softmaxRow_sum (E : ℚ → ℚ) (hE : ∀ x, 0 < E x) (r : List ℚ) (hr : r ≠ []) :
    (softmaxRow E r).sum = 1 := by
  unfold softmaxRow
  have hS : 0 < (r.map E).sum := sum_map_pos E hE r hr
  have hmm : r.map (fun x => E x / (r.map E).sum) =
      (r.map E).map (fun y => y / (r.map E).sum) := by
    rw [List.map_map]
    rfl
  rw [hmm, sum_map_div, div_self (ne_of_gt hS)]

theorem mapRow_isMat {m : Mat} {r c : ℕ} (f : ℚ → ℚ) (h : IsMat m r c) :
    IsMat (m.map (fun row => row.map f)) r c := by
  refine ⟨by simp [h.1], ?_⟩
  intro row hrow
  obtain ⟨row0, hrow0, rfl⟩ := List.mem_map.1 hrow
  simp [h.2 row0 hrow0]

theorem softmaxM_isMat {m : Mat} {r c : ℕ} (E : ℚ → ℚ) (h : IsMat m r c) :
    IsMat (softmaxM E m) r c := by
  refine ⟨by simp [softmaxM, h.1], ?_⟩
  intro row hrow
  obtain ⟨row0, hrow0, rfl⟩ := List.mem_map.1 hrow
  simp [softmaxRow, h.2 row0 hrow0]

theorem sdpaWeights_isMat {Q K : Mat} {sq sk dk : ℕ} (E : ℚ → ℚ) (sF : ℕ → ℚ)
    (hQ : IsMat Q sq dk) (hK : IsMat K sk dk) (hsk : 0 < sk) (hdk : 0 < dk) :
    IsMat (ScaledDotProductAttention.weights E sF Q K) sq sk := by
  unfold ScaledDotProductAttention.weights
  exact softmaxM_isMat E (mapRow_isMat _
    (matmul_isMat hQ (transposeM_isMat hK hsk) hdk))

theorem sdpa_forward_isMat {Q K V : Mat} {sq sk dk dv : ℕ} (E : ℚ → ℚ) (sF : ℕ → ℚ)
    (hQ : IsMat Q sq dk) (hK : IsMat K sk dk) (hV : IsMat V sk dv)
    (hsk : 0 < sk) (hdk : 0 < dk) :
    IsMat (ScaledDotProductAttention.forward E sF Q K V) sq dv :=
  matmul_isMat (sdpaWeights_isMat E sF hQ hK hsk hdk) hV hsk

/-- Claim C4: for Query (seq_q, d_k), Key (seq_k, d_k), Value (seq_k, d_v),
unmasked ScaledDotProductAttention returns an output of shape
(seq_q, d_v), and every row of the softmax attention-weight matrix sums to
exactly 1 (hence within the 1e-5 tolerance).  Leading batch axes map this
same computation over the batch. -/
theorem C4_sdpa_shape_and_rowsums (E : ℚ → ℚ) (sF : ℕ → ℚ) (Q K V : Mat)
    (sq sk dk dv : ℕ) (hQ : IsMat Q sq dk) (hK : IsMat K sk dk) (hV : IsMat V sk dv)
    (hsk : 0 < sk) (hdk : 0 < dk) (hE : ∀ x, 0 < E x) :
    IsMat (ScaledDotProductAttention.forward E sF Q K V) sq dv ∧
    ∀ row ∈ ScaledDotProductAttention.weights E sF Q K, row.sum = 1 := by
  refine ⟨sdpa_forward_isMat E sF hQ hK hV hsk hdk, ?_⟩
  intro row hrow
  have hscaled : IsMat ((matmul Q (transposeM K)).map
      (fun r => r.map (fun v => v / sF (K.headD []).length))) sq sk :=
    mapRow_isMat _ (matmul_isMat hQ (transposeM_isMat hK hsk) hdk)
  unfold ScaledDotProductAttention.weights softmaxM at hrow
  obtain ⟨row0, hrow0, rfl⟩ := List.mem_map.1 hrow
  apply softmaxRow_sum E hE
  have hlen := hscaled.2 row0 hrow0
  intro hnil
  rw [hnil] at hlen
  simp at hlen
  omega

/-- Witness for C4 at a concrete 1×1 input with E = 1. -/
theorem C4_witness :
    IsMat [[(1 : ℚ)]] 1 1 ∧ (0 : ℕ) < 1 ∧ (∀ _x : ℚ, 0 < (1 : ℚ)) ∧
    (IsMat (ScaledDotProductAttention.forward (fun _ => 1) (fun _ => 1)
        [[(1 : ℚ)]] [[(1 : ℚ)]] [[(1 : ℚ)]]) 1 1 ∧
      ∀ row ∈ ScaledDotProductAttention.weights (fun _ => 1) (fun _ => 1)
        [[(1 : ℚ)]] [[(1 : ℚ)]], row.sum = 1) :=
  ⟨by decide, Nat.one_pos, fun _ => one_pos,
   C4_sdpa_shape_and_rowsums (fun _ => 1) (fun _ => 1) [[1]] [[1]] [[1]] 1 1 1 1
     (by decide) (by decide) (by decide) Nat.one_pos Nat.one_pos (fun _ => one_pos)⟩

theorem length_zipWith3 {α β γ δ : Type} (f : α → β → γ → δ) :
    ∀ (as : List α) (bs : List β) (cs : List γ),
      (List.zipWith3 f as bs cs).length = min as.length (min bs.length cs.length)
  | [], _, _ => by simp [List.zipWith3]
  | _ :: _, [], _ => by simp [List.zipWith3]
  | _ :: _, _ :: _, [] => by simp [List.zipWith3]
  | a :: as, b :: bs, c :: cs => by
    simp only [List.zipWith3, List.length_cons, length_zipWith3 f as bs cs]
    omega

theorem of_mem_zipWith3 {α β γ δ : Type} {f : α → β → γ → δ} :
    ∀ {as : List α} {bs : List β} {cs : List γ} {x : δ},
      x ∈ List.zipWith3 f as bs cs → ∃ a ∈ as, ∃ b ∈ bs, ∃ c ∈ cs, x = f a b c
  | [], _, _, _, hx => by simp [List.zipWith3] at hx
  | _ :: _, [], _, _, hx => by simp [List.zipWith3] at hx
  | _ :: _, _ :: _, [], _, hx => by simp [List.zipWith3] at hx
  | a :: as, b :: bs, c :: cs, x, hx => by
    simp only [List.zipWith3, List.mem_cons] at hx
    rcases hx with rfl | hx
    · exact ⟨a, by simp, b, by simp, c, by simp, rfl⟩
    · obtain ⟨a0, ha0, b0, hb0, c0, hc0, rfl⟩ := of_mem_zipWith3 hx
      exact ⟨a0, by simp [ha0], b0, by simp [hb0], c0, by simp [hc0], rfl⟩

theorem attention_forward_isT3 {w : AttentionW} {x : T3} {mem : Option T3}
    {b n nm dm dk : ℕ} (E : ℚ → ℚ) (sF : ℕ → ℚ)
    (hWK : IsMat w.WK dm dk) (hWQ : IsMat w.WQ dm dk) (hWV : IsMat w.WV dm dk)
    (hx : IsT3 x b n dm) (hXm : IsT3 (mem.getD x) b nm dm)
    (hdm : 0 < dm) (hdk : 0 < dk) (hnm : 0 < nm) :
    IsT3 (Attention.forward E sF w x mem) b n dk := by
  unfold Attention.forward
  have hQ : IsT3 (matmul3 x w.WQ) b n dk := matmul3_isT3 hx hWQ hdm
  have hK : IsT3 (matmul3 (mem.getD x) w.WK) b nm dk := matmul3_isT3 hXm hWK hdm
  have hV : IsT3 (matmul3 (mem.getD x) w.WV) b nm dk := matmul3_isT3 hXm hWV hdm
  constructor
  · rw [length_zipWith3, hQ.1, hK.1, hV.1]
    omega
  · intro m hm
    obtain ⟨q, hq, k, hk, v, hv, rfl⟩ := of_mem_zipWith3 hm
    exact sdpa_forward_isMat E sF (hQ.2 q hq) (hK.2 k hk) (hV.2 v hv) hnm hdk

theorem zipAppend_isT3 {A B : T3} {b n c1 c2 : ℕ}
    (hA : IsT3 A b n c1) (hB : IsT3 B b n c2) :
    IsT3 (List.zipWith (fun ma mb => List.zipWith (· ++ ·) ma mb) A B) b n (c1 + c2) := by
  constructor
  · simp [hA.1, hB.1]
  · intro m hm
    obtain ⟨ma, hma, mb, hmb, rfl⟩ := of_mem_zipWith hm
    constructor
    · simp [(hA.2 ma hma).1, (hB.2 mb hmb).1]
    · intro row hrow
      obtain ⟨ra, hra, rb, hrb, rfl⟩ := of_mem_zipWith hrow
      simp [(hA.2 ma hma).2 ra hra, (hB.2 mb hmb).2 rb hrb]

theorem cat3_foldl_isT3 {b n d : ℕ} :
    ∀ (rest : List T3) (acc : T3) (w : ℕ), IsT3 acc b n w →
      (∀ u ∈ rest, IsT3 u b n d) →
      IsT3 (rest.foldl
        (fun acc u => List.zipWith (fun ma mb => List.zipWith (· ++ ·) ma mb) acc u) acc)
        b n (w + rest.length * d)
  | [], acc, w, hacc, _ => by simpa using hacc
  | u :: rest, acc, w, hacc, hall => by
    have h1 := zipAppend_isT3 hacc (hall u (by simp))
    have h2 := cat3_foldl_isT3 rest _ (w + d) h1 (fun v hv => hall v (by simp [hv]))
    simp only [List.foldl_cons, List.length_cons]
    have harith : w + (rest.length + 1) * d = w + d + rest.length * d := by ring
    rw [harith]
    exact h2

theorem cat3_isT3 {b n d : ℕ} {ts : List T3} (hne : ts ≠ [])
    (hts : ∀ t ∈ ts, IsT3 t b n d) : IsT3 (cat3 ts) b n (ts.length * d) := by
  match ts, hne with
  | t :: rest, _ =>
    unfold cat3
    have h1 := cat3_foldl_isT3 rest t d (hts t (by simp))
      (fun u hu => hts u (by simp [hu]))
    have harith : (t :: rest).length * d = d + rest.length * d := by
      simp [List.length_cons]
      ring
    rw [harith]
    exact h1

/-- Claim C5: MultiHeadAttention.forward runs all h heads on the same
(input, memory) pair, concatenates the head outputs along the feature axis
into width h·d_k, and projects by the (h·d_k, d_model) matrix W; for every
input of shape (batch, seq, d_model) with d_model % h == 0 the output shape
equals the input's (batch, seq, d_model), regardless of the head count h. -/
theorem C5_mha_preserves_shape (E : ℚ → ℚ) (sF : ℕ → ℚ) (heads : List AttentionW)
    (W : Mat) (x : T3) (mem : Option T3) (h d_model b n nm : ℕ)
    (hh : heads.length = h) (h0 : 0 < h) (hdvd : d_model % h = 0) (hdm : 0 < d_model)
    (hws : ∀ a ∈ heads, IsMat a.WK d_model (d_model / h) ∧
      IsMat a.WQ d_model (d_model / h) ∧ IsMat a.WV d_model (d_model / h))
    (hW : IsMat W (h * (d_model / h)) d_model)
    (hx : IsT3 x b n d_model) (hmem : IsT3 (mem.getD x) b nm d_model) (hnm : 0 < nm) :
    IsT3 (MultiHeadAttention.forward E sF heads W x mem) b n d_model := by
  have hdk : 0 < d_model / h := by
    rcases Nat.eq_zero_or_pos (d_model / h) with h1 | h1
    · exfalso
      have h2 := Nat.div_mul_cancel (Nat.dvd_of_mod_eq_zero hdvd)
      rw [h1] at h2
      simp at h2
      omega
    · exact h1
  unfold MultiHeadAttention.forward
  have hmap : ∀ t ∈ heads.map (fun a => Attention.forward E sF a x mem),
      IsT3 t b n (d_model / h) := by
    intro t ht
    obtain ⟨a, ha, rfl⟩ := List.mem_map.1 ht
    obtain ⟨hk1, hk2, hk3⟩ := hws a ha
    exact attention_forward_isT3 E sF hk1 hk2 hk3 hx hmem hdm hdk hnm
  have hne : heads.map (fun a => Attention.forward E sF a x mem) ≠ [] := by
    intro hnil
    rw [List.map_eq_nil_iff] at hnil
    rw [hnil] at hh
    simp at hh
    omega
  have hcat := cat3_isT3 hne hmap
  rw [List.length_map, hh] at hcat
  exact matmul3_isT3 hcat hW (Nat.mul_pos h0 hdk)

/-- Witness for C5 at a concrete single-head 1×1×1 input. -/
theorem C5_witness :
    ([(⟨[[1]], [[1]], [[1]]⟩ : AttentionW)].length = 1 ∧ (0 : ℕ) < 1 ∧
      1 % 1 = 0 ∧ IsMat [[(1 : ℚ)]] (1 * (1 / 1)) 1 ∧
      IsT3 [[[(1 : ℚ)]]] 1 1 1) ∧
    IsT3 (MultiHeadAttention.forward (fun _ => 1) (fun _ => 1)
      [(⟨[[1]], [[1]], [[1]]⟩ : AttentionW)] [[1]] [[[1]]] none) 1 1 1 :=
  ⟨⟨rfl, Nat.one_pos, rfl, by decide, by decide⟩,
   C5_mha_preserves_shape (fun _ => 1) (fun _ => 1) [⟨[[1]], [[1]], [[1]]⟩]
     [[1]] [[[1]]] none 1 1 1 1 1 rfl Nat.one_pos rfl Nat.one_pos
     (by decide) (by decide) (by decide) (by decide) Nat.one_pos⟩

/-! ### Entry-level lemmas for the weight-tying claim -/

theorem getD_of_lt {α : Type} (l : List α) (i : ℕ) (d : α) (h : i < l.length) :
    l.getD i d = l[i] := by
  simp [List.getD_eq_getElem?_getD, List.getElem?_eq_getElem h]

theorem getD_range_map {α : Type} (n : ℕ) (f : ℕ → α) (t : ℕ) (ht : t < n) (d : α) :
    ((List.range n).map f).getD t d = f t := by
  have hlen : t < ((List.range n).map f).length := by simpa using ht
  rw [getD_of_lt _ _ _ hlen]
  simp

theorem getD_map_of_lt {α β : Type} (f : α → β) (l : List α) (t : ℕ)
    (ht : t < l.length) (d : β) (d2 : α) : (l.map f).getD t d = f (l.getD t d2) := by
  rw [getD_of_lt _ _ _ (by simpa using ht), getD_of_lt _ _ _ ht]
  simp

theorem range_map_getD {α : Type} (l : List α) (d0 : α) :
    (List.range l.length).map (fun j => l.getD j d0) = l := by
  apply List.ext_getElem (by simp)
  intro i h1 h2
  have h3 : i < l.length := by simpa using h2
  simp only [List.getElem_map, List.getElem_range]
  rw [getD_of_lt _ _ _ h3]

theorem dotQ_ones (l : List ℚ) : dotQ (List.replicate l.length 1) l = l.sum := by
  induction l with
  | nil => rfl
  | cons a t ih =>
    unfold dotQ at ih ⊢
    simp only [List.length_cons, List.replicate_succ, List.zipWith_cons_cons,
      List.sum_cons, one_mul, ih]

theorem sum_set (l : List ℚ) : ∀ (j : ℕ) (v : ℚ), j < l.length →
    (l.set j v).sum = l.sum - l.getD j 0 + v := by
  induction l with
  | nil => intro j v h; simp at h
  | cons a t ih =>
    intro j v h
    cases j with
    | zero =>
      simp only [List.set, List.sum_cons, List.getD_cons_zero]
      ring
    | succ j =>
      simp only [List.set, List.sum_cons, List.getD_cons_succ]
      rw [ih j v (by simpa using h)]
      ring

theorem setEntry_isMat {m : Mat} {r c : ℕ} (h : IsMat m r c) (t j : ℕ) (v : ℚ)
    (ht : t < r) : IsMat (setEntry m t j v) r c := by
  constructor
  · simp [setEntry, h.1]
  · intro row hrow
    unfold setEntry at hrow
    rcases List.mem_or_eq_of_mem_set hrow with hmem | heq
    · exact h.2 row hmem
    · subst heq
      have hm : t < m.length := by rw [h.1]; exact ht
      rw [List.length_set, getD_of_lt _ _ _ hm]
      exact h.2 _ (List.getElem_mem hm)

/-- The t-th vocabulary entry of the pre-softmax projection applied to the
all-ones feature row equals the sum of row t of the embedding matrix. -/
theorem matmul_ones_row_entry {w : Mat} {nt d t : ℕ}
    (hw : IsMat w nt d) (hnt : 0 < nt) (hd : 0 < d) (ht : t < nt) :
    ((matmul [List.replicate d 1] (transposeM w)).getD 0 []).getD t 0 =
      (w.getD t []).sum := by
  have hB : IsMat (transposeM w) d nt := transposeM_isMat hw hnt
  have hBhead : ((transposeM w).headD []).length = nt := length_headD_of_isMat hB hd
  unfold matmul
  simp only [List.map_cons, List.map_nil, List.getD_cons_zero]
  rw [getD_map_of_lt _ _ t (by rw [(transposeM_isMat hB hd).1]; exact ht) 0 []]
  have hstep : (transposeM (transposeM w)).getD t [] =
      (transposeM w).map (fun r => r.getD t 0) := by
    show ((List.range ((transposeM w).headD []).length).map
      (fun j => (transposeM w).map (fun r => r.getD j 0))).getD t [] = _
    rw [hBhead, getD_range_map nt _ t ht]
  rw [hstep]
  have hwhead : (w.headD []).length = d := length_headD_of_isMat hw hnt
  have hcol : (transposeM w).map (fun r => r.getD t 0) =
      (List.range d).map (fun j => (w.getD t []).getD j 0) := by
    show ((List.range (w.headD []).length).map
      (fun j => w.map (fun r => r.getD j 0))).map (fun r => r.getD t 0) = _
    rw [hwhead, List.map_map]
    apply List.map_congr_left
    intro j _
    show (w.map (fun r => r.getD j 0)).getD t 0 = (w.getD t []).getD j 0
    rw [getD_map_of_lt _ _ t (by rw [hw.1]; exact ht) 0 []]
  rw [hcol]
  have hrowlen : (w.getD t []).length = d := by
    have hm : t < w.length := by rw [hw.1]; exact ht
    rw [getD_of_lt _ _ _ hm]
    exact hw.2 _ (List.getElem_mem hm)
  calc dotQ (List.replicate d 1) ((List.range d).map (fun j => (w.getD t []).getD j 0))
      = dotQ (List.replicate (w.getD t []).length 1)
          ((List.range (w.getD t []).length).map (fun j => (w.getD t []).getD j 0)) := by
        rw [hrowlen]
    _ = (w.getD t []).sum := by rw [range_map_getD]; exact dotQ_ones _

/-- Claim C6: the pre-softmax output projection multiplies by the transpose
of the same shared embedding matrix used for embedding lookup, so changing a
single entry (t, j) of the shared matrix changes both the embedding lookup
result for token t and the t-th vocabulary column of the final output
projection (witnessed on the all-ones decoder feature row). -/
theorem C6_weight_tying (weight : Mat) (nt d t j : ℕ) (v : ℚ)
    (hw : IsMat weight nt d) (hnt : 0 < nt) (hd : 0 < d) (ht : t < nt) (hj : j < d)
    (hv : v ≠ (weight.getD t []).getD j 0) :
    Embedding.lookup (setEntry weight t j v) [[t]] ≠ Embedding.lookup weight [[t]] ∧
    Transformer.projectScores (setEntry weight t j v) [[List.replicate d 1]] ≠
      Transformer.projectScores weight [[List.replicate d 1]] := by
  have hm : t < weight.length := by rw [hw.1]; exact ht
  have hrowlen : (weight.getD t []).length = d := by
    rw [getD_of_lt _ _ _ hm]
    exact hw.2 _ (List.getElem_mem hm)
  have hjlen : j < (weight.getD t []).length := by rw [hrowlen]; exact hj
  have hrow : (setEntry weight t j v).getD t [] = (weight.getD t []).set j v := by
    unfold setEntry
    rw [getD_of_lt _ _ _ (by simpa [hw.1] using ht)]
    simp
  constructor
  · intro h
    simp only [Embedding.lookup, List.map_cons, List.map_nil, List.cons.injEq,
      and_true] at h
    have h2 : ((weight.getD t []).set j v).getD j 0 = (weight.getD t []).getD j 0 := by
      rw [← hrow, h]
    rw [getD_of_lt _ _ _ (by simpa using hjlen), getD_of_lt _ _ _ hjlen,
      List.getElem_set_self _] at h2
    exact hv (by rw [h2, getD_of_lt _ _ _ hjlen])
  · intro h
    have hw' : IsMat (setEntry weight t j v) nt d := setEntry_isMat hw t j v ht
    have e1 := matmul_ones_row_entry hw' hnt hd ht
    have e2 := matmul_ones_row_entry hw hnt hd ht
    simp only [Transformer.projectScores, matmul3, List.map_cons, List.map_nil,
      List.cons.injEq, and_true] at h
    rw [h] at e1
    rw [e2] at e1
    rw [hrow, sum_set _ j v hjlen] at e1
    apply hv
    linarith

/-- Witness for C6: the 1×1 embedding matrix [[0]] updated at (0,0) to 1. -/
theorem C6_witness :
    (IsMat [[(0 : ℚ)]] 1 1 ∧ (0 : ℕ) < 1 ∧ (0 : ℕ) < 1 ∧ (1 : ℚ) ≠ ([[(0 : ℚ)]].getD 0 []).getD 0 0) ∧
    (Embedding.lookup (setEntry [[(0 : ℚ)]] 0 0 1) [[0]] ≠ Embedding.lookup [[(0 : ℚ)]] [[0]] ∧
      Transformer.projectScores (setEntry [[(0 : ℚ)]] 0 0 1) [[List.replicate 1 1]] ≠
        Transformer.projectScores [[(0 : ℚ)]] [[List.replicate 1 1]]) :=
  ⟨⟨by decide, Nat.one_pos, Nat.one_pos, by simp⟩,
   C6_weight_tying [[0]] 1 1 0 0 1 (by decide) Nat.one_pos Nat.one_pos
     Nat.one_pos Nat.one_pos (by simp)⟩

/-- Claim C7: for EVERY wrapped sub-transformation L and every input x the
sublayer wrapper returns Normalize(x + L(x)) — residual sum first, then
normalization — and, in particular, when L returns zero for every input the
sublayer output is exactly Normalize(x). -/
theorem C7_sublayer_residual_then_normalize (sq : ℚ → ℚ) (wn : LayerNormW)
    (L : T3 → T3) (x : T3) :
    Sublayer.forward sq wn L x = LayerNorm.forward sq wn (add3 x (L x)) ∧
    ((∀ y, L y = zerosLike3 y) →
      Sublayer.forward sq wn L x = LayerNorm.forward sq wn x) := by
  refine ⟨rfl, fun hL => ?_⟩
  unfold Sublayer.forward Residual_Connection.forward
  rw [hL x, add3_zerosLike]

/-- Witness for C7 at a concrete input: L the constant-zero transformation
(discharging the second conjunct's hypothesis), x = [[[1, 2]]]. -/
theorem C7_witness :
    (Sublayer.forward (fun v => v) ⟨[1, 1], [0, 0]⟩ zerosLike3 [[[1, 2]]] =
        LayerNorm.forward (fun v => v) ⟨[1, 1], [0, 0]⟩
          (add3 [[[1, 2]]] (zerosLike3 [[[1, 2]]]))) ∧
    (∀ y : T3, zerosLike3 y = zerosLike3 y) ∧
    Sublayer.forward (fun v => v) ⟨[1, 1], [0, 0]⟩ zerosLike3 [[[1, 2]]] =
      LayerNorm.forward (fun v => v) ⟨[1, 1], [0, 0]⟩ [[[1, 2]]] :=
  ⟨(C7_sublayer_residual_then_normalize (fun v => v) ⟨[1, 1], [0, 0]⟩
      zerosLike3 [[[1, 2]]]).1,
   fun _ => rfl,
   (C7_sublayer_residual_then_normalize (fun v => v) ⟨[1, 1], [0, 0]⟩
      zerosLike3 [[[1, 2]]]).2 (fun _ => rfl)⟩

/-- The positional-encoding matrix as the spec words it (for the refinement
comparison): even feature indices hold sin(position / 10000^(2i/d_model))
and odd indices the corresponding cos, with i = feature_index / 2. -/
def PositionalEncoding.specMatrix (sinF cosF powF : ℚ → ℚ) (n d : ℕ) : Mat :=
  (List.range n).map (fun (p : ℕ) => (List.range d).map (fun (c : ℕ) =>
    if c % 2 = 0 then sinF ((p : ℚ) / powF (2 * ((c / 2 : ℕ) : ℚ) / (d : ℚ)))
    else cosF ((p : ℚ) / powF (2 * ((c / 2 : ℕ) : ℚ) / (d : ℚ)))))

theorem pe_entry_eq (sinF cosF powF : ℚ → ℚ) (d p c : ℕ) (hd : d % 2 = 0) (hc : c < d) :
    PositionalEncoding.entry sinF cosF powF d p c =
      (if c % 2 = 0 then sinF ((p : ℚ) / powF (2 * ((c / 2 : ℕ) : ℚ) / (d : ℚ)))
       else cosF ((p : ℚ) / powF (2 * ((c / 2 : ℕ) : ℚ) / (d : ℚ)))) := by
  unfold PositionalEncoding.entry
  by_cases h2 : c % 2 = 0
  · by_cases h1 : d / 2 = 1
    · have hc0 : c / 2 = 0 := by omega
      simp [h1, h2, hc0]
    · simp [h1, h2]
  · simp [h2]

/-- Claim C8: PositionalEncoding is a deterministic, stateless function of
the input's (sequence_length, d_model) shape: two inputs of identical shape
produce identical output; for even d_model the produced matrix is exactly
the sin/cos formula matrix (even feature index c holds
sin(position / 10000^(2·(c/2)/d_model)), odd c the corresponding cos); and
at position 0 the row is the alternating (0, 1, 0, 1, …) pattern, since
sin(0) = 0 and cos(0) = 1. -/
theorem C8_positional_encoding (sinF cosF powF : ℚ → ℚ)
    (hs : sinF 0 = 0) (hc : cosF 0 = 1) (n d : ℕ) (hd : d % 2 = 0) (hn : 0 < n)
    (x y : T3)
    (hx1 : (x.headD []).length = n) (hx2 : ((x.headD []).headD []).length = d)
    (hy1 : (y.headD []).length = n) (hy2 : ((y.headD []).headD []).length = d) :
    PositionalEncoding.forwardT sinF cosF powF x =
        PositionalEncoding.forwardT sinF cosF powF y ∧
    PositionalEncoding.forward sinF cosF powF n d =
        some (PositionalEncoding.specMatrix sinF cosF powF n d) ∧
    ∀ c < d, ((PositionalEncoding.specMatrix sinF cosF powF n d).getD 0 []).getD c 0 =
        if c % 2 = 0 then 0 else 1 := by
  refine ⟨?_, ?_, ?_⟩
  · unfold PositionalEncoding.forwardT
    rw [hx1, hx2, hy1, hy2]
  · unfold PositionalEncoding.forward
    rw [if_pos (by simp [broadcastsTo]; omega)]
    unfold PositionalEncoding.specMatrix
    congr 1
    apply List.map_congr_left
    intro p _
    apply List.map_congr_left
    intro c hcd
    exact pe_entry_eq sinF cosF powF d p c hd (List.mem_range.1 hcd)
  · intro c hcd
    unfold PositionalEncoding.specMatrix
    rw [getD_range_map n _ 0 hn, getD_range_map d _ c hcd]
    by_cases h2 : c % 2 = 0 <;> simp [h2, hs, hc]

/-- Witness for C8: a 1×2 encoding with stand-in primitives satisfying
sin(0) = 0 and cos(0) = 1, and two different same-shape inputs. -/
theorem C8_witness :
    (2 % 2 = 0 ∧ (0 : ℕ) < 1) ∧
    (PositionalEncoding.forwardT (fun _ => 0) (fun _ => 1) (fun _ => 1) [[[0, 0]]] =
        PositionalEncoding.forwardT (fun _ => 0) (fun _ => 1) (fun _ => 1) [[[5, 7]]] ∧
      PositionalEncoding.forward (fun _ => 0) (fun _ => 1) (fun _ => 1) 1 2 =
        some (PositionalEncoding.specMatrix (fun _ => 0) (fun _ => 1) (fun _ => 1) 1 2) ∧
      ∀ c < 2,
        ((PositionalEncoding.specMatrix (fun _ => 0) (fun _ => 1) (fun _ => 1) 1 2).getD
            0 []).getD c 0 = if c % 2 = 0 then 0 else 1) :=
  ⟨⟨rfl, Nat.one_pos⟩,
   C8_positional_encoding (fun _ => 0) (fun _ => 1) (fun _ => 1) rfl rfl 1 2 rfl
     Nat.one_pos [[[0, 0]]] [[[5, 7]]] rfl rfl rfl rfl⟩

/-- Claim C9: Encoder.forward is extensionally the composition of the two
Sublayer wrappers it inlines — LayerNorm2(F(m) + m) for
m = LayerNorm1(A(x) + x) equals Sublayer(feed_forward) composed with
Sublayer(attention) with the same LayerNorm parameters. -/
theorem C9_encoder_equals_sublayer_composition (E : ℚ → ℚ) (sF : ℕ → ℚ)
    (sq : ℚ → ℚ) (e : EncoderW) (x : T3) :
    Encoder.forward E sF sq e x =
      Sublayer.forward sq e.layer_norm2 (FeedForwardNetwork.forward e.feed_forward)
        (Sublayer.forward sq e.layer_norm1
          (fun y => MultiHeadAttention.forward E sF e.attention_heads e.attention_W y none)
          x) := by
  unfold Encoder.forward Sublayer.forward Residual_Connection.forward
  rw [add3_comm x, add3_comm _ (FeedForwardNetwork.forward e.feed_forward _)]

end Transformers
